import Mathlib

/-!
Verification of the Probability-Fun repository: `brownian.py` and
`streaminginterpolators.py`.

The Python code stores observations of a one-dimensional process in an
ordered map (an `RBTree` from the `bintrees` library for the Brownian
history, an `AVLTree` for the interpolators).  Both library trees expose
the same contract: `insert` (replacing the value on an existing key),
`floor_item` (largest key less than or equal to the query), `ceiling_item`
(smallest key greater than or equal to the query), `min_key`, `max_key`
and `is_empty`.  We model such a tree as an association list that is kept
strictly sorted by its keys, and treat the Python floats as real numbers.
-/

/-- A stored observation: a (time, value) pair of reals. -/
abbrev DataPoint := ℝ × ℝ

/-- The contents of one ordered observation store (an `RBTree`/`AVLTree`
from the `bintrees` library), modelled as an association list that the
insertion operation keeps strictly sorted by key. -/
abbrev Store := List DataPoint

/-- The well-formedness invariant every `bintrees` tree maintains:
keys are strictly increasing in iteration order. -/
def SortedKeys (s : Store) : Prop :=
  List.Pairwise (fun p q : DataPoint => p.1 < q.1) s

/-- `tree.insert(key, value)`: adds the observation, replacing the stored
value when the key is already present. -/
noncomputable def storeInsert : Store → ℝ → ℝ → Store
  | [], t, v => [(t, v)]
  | (k, w) :: rest, t, v =>
    if t < k then (t, v) :: (k, w) :: rest
    else if t = k then (t, v) :: rest
    else (k, w) :: storeInsert rest t v

/-- `tree.floor_item(t)`: the observation with the largest key that is at
most `t`, on a sorted store; `none` when every key is larger than `t`. -/
noncomputable def floorItem : Store → ℝ → Option DataPoint
  | [], _ => none
  | (k, v) :: rest, t =>
    if k ≤ t then
      match floorItem rest t with
      | some p => some p
      | none => some (k, v)
    else none

/-- `tree.ceiling_item(t)`: the observation with the smallest key that is
at least `t`, on a sorted store; `none` when every key is smaller. -/
noncomputable def ceilingItem : Store → ℝ → Option DataPoint
  | [], _ => none
  | (k, v) :: rest, t => if t ≤ k then some (k, v) else ceilingItem rest t

/-- `tree.min_key()` on a sorted store (the head key), `none` if empty. -/
def storeMinKey? (s : Store) : Option ℝ := s.head?.map Prod.fst

/-- `tree.max_key()` on a sorted store (the last key), `none` if empty. -/
def storeMaxKey? (s : Store) : Option ℝ := s.getLast?.map Prod.fst

/-- `BrownianVariableHistory.getMartingaleRelevantPoints` (brownian.py,
lines 29-53): on an empty history return `(None, None)`; otherwise take
`floor_item t` when `min_key() <= t` and `ceiling_item t` when
`max_key() >= t`, each `None` when its guard fails. -/
noncomputable def getMartingaleRelevantPoints (hist : Store) (t : ℝ) :
    Option DataPoint × Option DataPoint :=
  if hist.isEmpty then (none, none)
  else
    let leftPoint : Option DataPoint :=
      match storeMinKey? hist with
      | some m => if m ≤ t then floorItem hist t else none
      | none => none
    let rightPoint : Option DataPoint :=
      match storeMaxKey? hist with
      | some m => if t ≤ m then ceilingItem hist t else none
      | none => none
    (leftPoint, rightPoint)

/-- The error kinds of the design: the fatal history-corruption error
raised by `getPossibleValueDistr`, the empty-store error of min/max
queries, and the (nowhere raised) invalid-parameter error. -/
inductive BrownianError where
  | historyCorruption : BrownianError
  | emptyStore : BrownianError
  | invalidParameter : BrownianError
deriving DecidableEq

/-- The distribution descriptor returned by `getPossibleValueDistr`: the
`loc` (mean) and `scale` (standard deviation) of a `scipy.stats.norm`. -/
structure NormalDistr where
  loc : ℝ
  scale : ℝ

/-- `BrownianVariable` (brownian.py, lines 56-66): diffusion coefficient
`sigma`, seed point, `drift`, and the owned (or injected) history. -/
structure BrownianVariable where
  sigma : ℝ
  startTime : ℝ
  startVal : ℝ
  drift : ℝ
  history : Store

/-- `BrownianVariable.__init__` (brownian.py, lines 59-66): record the
parameters and insert the seed point `(startTime, startVal)` into the
history.  The body performs no validation of `sigma`, so the result is
always a success; the `Except` type records which construction errors
exist in the design. -/
noncomputable def mkBrownianVariable (sigma startTime startVal drift : ℝ)
    (history : Store) : Except BrownianError BrownianVariable :=
  .ok ⟨sigma, startTime, startVal, drift, storeInsert history startTime startVal⟩

/-- `BrownianVariable._getDistribution` (brownian.py, lines 146-161):
`mean = (t - baseT) * drift + baseVal`,
`standardDev = abs(t - baseT) ** 0.5 * sigma` (a power of a nonnegative
float, i.e. the square root). -/
noncomputable def getDistribution (t baseT baseVal sigma drift : ℝ) : ℝ × ℝ :=
  ((t - baseT) * drift + baseVal, Real.sqrt |t - baseT| * sigma)

/-- `BrownianVariable._getSandwichDistribution` (brownian.py, lines
118-144): the two one-sided projections fused by precision weighting. -/
noncomputable def getSandwichDistribution
    (t baseTLeft baseValLeft baseTRight baseValRight sigma drift : ℝ) : ℝ × ℝ :=
  let mdLeft := getDistribution t baseTLeft baseValLeft sigma drift
  let mdRight := getDistribution t baseTRight baseValRight sigma drift
  ((mdLeft.2 ^ (-2 : ℤ) * mdLeft.1 + mdRight.2 ^ (-2 : ℤ) * mdRight.1) /
      (mdLeft.2 ^ (-2 : ℤ) + mdRight.2 ^ (-2 : ℤ)),
    Real.sqrt ((mdLeft.2 ^ 2 * mdRight.2 ^ 2) / (mdLeft.2 ^ 2 + mdRight.2 ^ 2)))

/-- `BrownianVariable.getPossibleValueDistr` (brownian.py, lines 77-116):
classify the query by the pair of martingale-relevant points; raise the
history-corruption error when both are absent, return a point mass on an
exact key match, a one-sided projection when a single neighbour exists,
and the sandwich (bridge) distribution when both do. -/
noncomputable def BrownianVariable.getPossibleValueDistr
    (bv : BrownianVariable) (t : ℝ) : Except BrownianError NormalDistr :=
  match getMartingaleRelevantPoints bv.history t with
  | (none, none) => .error .historyCorruption
  | (some (prevT, prevVal), none) =>
    if prevT = t then .ok ⟨prevVal, 0⟩
    else
      let md := getDistribution t prevT prevVal bv.sigma bv.drift
      .ok ⟨md.1, md.2⟩
  | (none, some (futrT, futrVal)) =>
    if futrT = t then .ok ⟨futrVal, 0⟩
    else
      let md := getDistribution t futrT futrVal bv.sigma bv.drift
      .ok ⟨md.1, md.2⟩
  | (some (prevT, prevVal), some (futrT, futrVal)) =>
    if prevT = t then .ok ⟨prevVal, 0⟩
    else if futrT = t then .ok ⟨futrVal, 0⟩
    else
      let md := getSandwichDistribution t prevT prevVal futrT futrVal bv.sigma bv.drift
      .ok ⟨md.1, md.2⟩

/-- `BrownianVariable.getValue` (brownian.py, lines 163-177): sample the
distribution at `t` through the external Gaussian sampler `draw` (the
`distr.rvs()` call) and, when `storeInHistory`, insert the sample. -/
noncomputable def BrownianVariable.getValue (bv : BrownianVariable)
    (draw : ℝ → ℝ → ℝ) (t : ℝ) (storeInHistory : Bool) :
    Except BrownianError (ℝ × BrownianVariable) :=
  match bv.getPossibleValueDistr t with
  | .error e => .error e
  | .ok distr =>
    let val := draw distr.loc distr.scale
    if storeInHistory then
      .ok (val, { bv with history := storeInsert bv.history t val })
    else .ok (val, bv)

/-- One step of Python's stable `sorted`: insert a pair after all pairs
whose second component (the time) is at most its own. -/
noncomputable def insertSortedPair (p : ℕ × ℝ) : List (ℕ × ℝ) → List (ℕ × ℝ)
  | [] => [p]
  | q :: rest => if q.2 ≤ p.2 then q :: insertSortedPair p rest else p :: q :: rest

/-- Python's `sorted(enumerate(tList), key=lambda x: x[1])`, modelled as a
stable insertion sort on the (index, time) pairs. -/
noncomputable def sortPairsByTime : List (ℕ × ℝ) → List (ℕ × ℝ)
  | [] => []
  | p :: rest => insertSortedPair p (sortPairsByTime rest)

/-- `sortedIdxs = [e[0] for e in sorted(enumerate(tList), key=...)]`
(brownian.py, lines 187-188). -/
noncomputable def sortedIdxs (tList : List ℝ) : List ℕ :=
  (sortPairsByTime ((List.range tList.length).zip tList)).map Prod.fst

/-- The `for i in sortedIdxs` loop of `getValues` (brownian.py, lines
189-191): draw for each listed position in turn (the `k`-th draw uses
`sampler k`), inserting every sample into the history, and record the
(position, sample) assignments in order. -/
noncomputable def getValuesLoop (sampler : ℕ → ℝ → ℝ → ℝ) (tList : List ℝ) :
    List ℕ → BrownianVariable → ℕ →
    Except BrownianError (List (ℕ × ℝ) × BrownianVariable)
  | [], bv, _ => .ok ([], bv)
  | i :: rest, bv, k =>
    match bv.getValue (sampler k) (tList.getD i 0) true with
    | .error e => .error e
    | .ok (val, bv₁) =>
      match getValuesLoop sampler tList rest bv₁ (k + 1) with
      | .error e => .error e
      | .ok (pairs, bvF) => .ok ((i, val) :: pairs, bvF)

/-- `BrownianVariable.getValues` (brownian.py, lines 179-192): run the
loop over the time-sorted positions, then read `retVals` off position by
position. -/
noncomputable def BrownianVariable.getValues (bv : BrownianVariable)
    (sampler : ℕ → ℝ → ℝ → ℝ) (tList : List ℝ) :
    Except BrownianError (List ℝ × BrownianVariable) :=
  match getValuesLoop sampler tList (sortedIdxs tList) bv 0 with
  | .error e => .error e
  | .ok (pairs, bv₁) =>
    .ok ((List.range tList.length).map (fun i => (pairs.lookup i).getD 0), bv₁)

/-- `LinearStreamingInterpolator.getInterpolatedVal`
(streaminginterpolators.py, lines 43-75): `None` on an empty store;
otherwise look up the guarded floor and ceiling, return the stored value
on an exact key match, the single neighbour when only one exists, and the
inverse-distance-weighted average of the two values otherwise. -/
noncomputable def linearGetInterpolatedVal (hist : Store) (x : ℝ) : Option ℝ :=
  if hist.isEmpty then none
  else
    let left : Option DataPoint :=
      match storeMinKey? hist with
      | some m => if m ≤ x then floorItem hist x else none
      | none => none
    let right : Option DataPoint :=
      match storeMaxKey? hist with
      | some m => if x ≤ m then ceilingItem hist x else none
      | none => none
    match left, right with
    | none, none => none
    | none, some (_, rightVal) => some rightVal
    | some (_, leftVal), none => some leftVal
    | some (leftX, leftVal), some (rightX, rightVal) =>
      if leftX = x then some leftVal
      else if rightX = x then some rightVal
      else
        some ((|x - rightX| * leftVal + |x - leftX| * rightVal) /
          (|x - leftX| + |x - rightX|))

/-- `NearestNeighborStreamingInterpolator.getInterpolatedVal`
(streaminginterpolators.py, lines 94-122): `None` on an empty store, the
single neighbour when only one exists, otherwise the value whose key is
strictly closer to `x`, the right one on a tie. -/
noncomputable def nearestNeighborGetInterpolatedVal (hist : Store) (x : ℝ) :
    Option ℝ :=
  if hist.isEmpty then none
  else
    let left : Option DataPoint :=
      match storeMinKey? hist with
      | some m => if m ≤ x then floorItem hist x else none
      | none => none
    let right : Option DataPoint :=
      match storeMaxKey? hist with
      | some m => if x ≤ m then ceilingItem hist x else none
      | none => none
    match left, right with
    | none, none => none
    | none, some (_, rightVal) => some rightVal
    | some (_, leftVal), none => some leftVal
    | some (leftX, leftVal), some (rightX, rightVal) =>
      if |x - leftX| < |x - rightX| then some leftVal else some rightVal

/-!
A small heap model for the Python object semantics that claim C10 is
about.  Python evaluates the default argument `history =
BrownianVariableHistory()` of `BrownianVariable.__init__` exactly once,
when the `def` statement is executed at module load; every call that does
not pass `history` receives that one object.  The model therefore keeps
all live `BrownianVariableHistory` objects in a module state, with the
single default object allocated at load time at reference 0, and lets a
variable hold a reference into that state.
-/

/-- The module state: every allocated `BrownianVariableHistory` object,
indexed by its reference. -/
structure PyState where
  heap : List Store

/-- The reference of the one default history object, allocated when
`brownian.py` is loaded (the evaluation of the default argument). -/
def defaultHistoryRef : ℕ := 0

/-- The module state right after `brownian.py` is loaded: only the
default history object exists, and it is empty. -/
def initialPyState : PyState := ⟨[[]]⟩

/-- Dereference a history object. -/
def storeAt (s : PyState) (r : ℕ) : Store := s.heap.getD r []

/-- Mutate a history object in place. -/
def setStoreAt (s : PyState) (r : ℕ) (st : Store) : PyState := ⟨s.heap.set r st⟩

/-- Allocate a fresh, empty `BrownianVariableHistory()` (what a caller
does to pass an explicit history). -/
def allocHistory (s : PyState) : ℕ × PyState := (s.heap.length, ⟨s.heap ++ [[]]⟩)

/-- A `BrownianVariable` as a Python object: its scalar parameters plus a
reference to its history object. -/
structure BrownianVariableRef where
  sigma : ℝ
  startTime : ℝ
  startVal : ℝ
  drift : ℝ
  historyRef : ℕ

/-- `BrownianVariable.__init__` in the heap model: a call that passes no
`history` argument (`historyArg = none`) receives the default object at
`defaultHistoryRef`; the seed point is then inserted into the referenced
history object (brownian.py, lines 59-66). -/
noncomputable def mkBrownianVariableRef (sigma startTime startVal drift : ℝ)
    (historyArg : Option ℕ) (s : PyState) : BrownianVariableRef × PyState :=
  let r := historyArg.getD defaultHistoryRef
  (⟨sigma, startTime, startVal, drift, r⟩,
    setStoreAt s r (storeInsert (storeAt s r) startTime startVal))

/-- `history.insertData(t, val)` called through a variable (brownian.py,
lines 20-27): mutates the referenced history object. -/
noncomputable def insertDataVia (bv : BrownianVariableRef) (t v : ℝ)
    (s : PyState) : PyState :=
  setStoreAt s bv.historyRef (storeInsert (storeAt s bv.historyRef) t v)

/-- The view of a heap-model variable as a value-level
`BrownianVariable`. -/
def derefVariable (bv : BrownianVariableRef) (s : PyState) : BrownianVariable :=
  ⟨bv.sigma, bv.startTime, bv.startVal, bv.drift, storeAt s bv.historyRef⟩

/-- `getValue(t)` called through a heap-model variable with
`storeInHistory` left at its default `True`: the sample is inserted into
the referenced history object. -/
noncomputable def getValueVia (bv : BrownianVariableRef) (draw : ℝ → ℝ → ℝ)
    (t : ℝ) (s : PyState) : Except BrownianError (ℝ × PyState) :=
  match (derefVariable bv s).getPossibleValueDistr t with
  | .error e => .error e
  | .ok distr =>
    let val := draw distr.loc distr.scale
    .ok (val, setStoreAt s bv.historyRef (storeInsert (storeAt s bv.historyRef) t val))

/-! Basic facts about the ordered-store model. -/

theorem storeInsert_ne_nil (s : Store) (t v : ℝ) : storeInsert s t v ≠ [] := by
  match s with
  | [] => simp [storeInsert]
  | (k, w) :: rest =>
    simp only [storeInsert]
    split
    · simp
    · split <;> simp

theorem mem_storeInsert_self (s : Store) (t v : ℝ) : (t, v) ∈ storeInsert s t v := by
  induction s with
  | nil => simp [storeInsert]
  | cons q rest ih =>
    obtain ⟨k, w⟩ := q
    simp only [storeInsert]
    split
    · simp
    · split
      · simp
      · exact List.mem_cons_of_mem _ ih

theorem mem_storeInsert (s : Store) (t v : ℝ) (p : DataPoint)
    (hp : p ∈ storeInsert s t v) : p = (t, v) ∨ p ∈ s := by
  induction s with
  | nil => simpa [storeInsert] using hp
  | cons q rest ih =>
    obtain ⟨k, w⟩ := q
    simp only [storeInsert] at hp
    split at hp
    · rcases List.mem_cons.mp hp with h | h
      · exact Or.inl h
      · exact Or.inr h
    · split at hp
      · rcases List.mem_cons.mp hp with h | h
        · exact Or.inl h
        · exact Or.inr (List.mem_cons_of_mem _ h)
      · rcases List.mem_cons.mp hp with h | h
        · exact Or.inr (h ▸ List.mem_cons_self _ _)
        · rcases ih h with h' | h'
          · exact Or.inl h'
          · exact Or.inr (List.mem_cons_of_mem _ h')

theorem sortedKeys_storeInsert (s : Store) (t v : ℝ) (hs : SortedKeys s) :
    SortedKeys (storeInsert s t v) := by
  induction s with
  | nil => simp [storeInsert, SortedKeys]
  | cons q rest ih =>
    obtain ⟨k, w⟩ := q
    rw [SortedKeys, List.pairwise_cons] at hs
    obtain ⟨hk, hrest⟩ := hs
    simp only [storeInsert]
    split
    · rename_i hlt
      rw [SortedKeys, List.pairwise_cons]
      refine ⟨?_, ?_⟩
      · intro a ha
        rcases List.mem_cons.mp ha with h | h
        · rw [h]; exact hlt
        · exact lt_trans hlt (hk a h)
      · rw [List.pairwise_cons]; exact ⟨hk, hrest⟩
    · split
      · rename_i hnlt heq
        subst heq
        rw [SortedKeys, List.pairwise_cons]
        exact ⟨hk, hrest⟩
      · rename_i hnlt hne
        rw [SortedKeys, List.pairwise_cons]
        refine ⟨?_, ih hrest⟩
        intro a ha
        rcases mem_storeInsert rest t v a ha with h | h
        · rw [h]
          exact lt_of_le_of_ne (le_of_not_lt hnlt) (fun hh => hne hh.symm)
        · exact hk a h

theorem floorItem_mem (s : Store) (t : ℝ) (p : DataPoint)
    (h : floorItem s t = some p) : p ∈ s := by
  induction s with
  | nil => simp [floorItem] at h
  | cons q rest ih =>
    obtain ⟨k, w⟩ := q
    simp only [floorItem] at h
    split at h
    · cases hf : floorItem rest t with
      | some r =>
        rw [hf] at h
        simp only [Option.some.injEq] at h
        exact List.mem_cons_of_mem _ (ih (h ▸ hf))
      | none =>
        rw [hf] at h
        simp only [Option.some.injEq] at h
        rw [← h]
        exact List.mem_cons_self _ _
    · exact absurd h (by simp)

theorem floorItem_key_le (s : Store) (t : ℝ) (p : DataPoint)
    (h : floorItem s t = some p) : p.1 ≤ t := by
  induction s with
  | nil => simp [floorItem] at h
  | cons q rest ih =>
    obtain ⟨k, w⟩ := q
    simp only [floorItem] at h
    split at h
    · rename_i hk
      cases hf : floorItem rest t with
      | some r =>
        rw [hf] at h
        simp only [Option.some.injEq] at h
        exact ih (h ▸ hf)
      | none =>
        rw [hf] at h
        simp only [Option.some.injEq] at h
        rw [← h]
        exact hk
    · exact absurd h (by simp)

theorem ceilingItem_mem (s : Store) (t : ℝ) (p : DataPoint)
    (h : ceilingItem s t = some p) : p ∈ s := by
  induction s with
  | nil => simp [ceilingItem] at h
  | cons q rest ih =>
    obtain ⟨k, w⟩ := q
    simp only [ceilingItem] at h
    split at h
    · simp only [Option.some.injEq] at h
      rw [← h]
      exact List.mem_cons_self _ _
    · exact List.mem_cons_of_mem _ (ih h)

theorem ceilingItem_key_ge (s : Store) (t : ℝ) (p : DataPoint)
    (h : ceilingItem s t = some p) : t ≤ p.1 := by
  induction s with
  | nil => simp [ceilingItem] at h
  | cons q rest ih =>
    obtain ⟨k, w⟩ := q
    simp only [ceilingItem] at h
    split at h
    · rename_i hk
      simp only [Option.some.injEq] at h
      rw [← h]
      exact hk
    · exact ih h

theorem floorItem_eq_none_iff (s : Store) (t : ℝ) (hs : SortedKeys s) :
    floorItem s t = none ↔ ∀ p ∈ s, t < p.1 := by
  induction s with
  | nil => simp [floorItem]
  | cons q rest ih =>
    obtain ⟨k, w⟩ := q
    rw [SortedKeys, List.pairwise_cons] at hs
    obtain ⟨hk, hrest⟩ := hs
    simp only [floorItem]
    constructor
    · intro h
      split at h
      · exfalso
        cases hf : floorItem rest t with
        | some r => rw [hf] at h; exact absurd h (by simp)
        | none => rw [hf] at h; exact absurd h (by simp)
      · rename_i hkt
        intro p hp
        rcases List.mem_cons.mp hp with h' | h'
        · rw [h']; exact not_le.mp hkt
        · exact lt_trans (not_le.mp hkt) (hk p h')
    · intro h
      rw [if_neg (not_le.mpr (h (k, w) (List.mem_cons_self _ _)))]

theorem ceilingItem_eq_none_iff (s : Store) (t : ℝ) :
    ceilingItem s t = none ↔ ∀ p ∈ s, p.1 < t := by
  induction s with
  | nil => simp [ceilingItem]
  | cons q rest ih =>
    obtain ⟨k, w⟩ := q
    simp only [ceilingItem]
    split
    · rename_i hk
      constructor
      · intro h; exact absurd h (by simp)
      · intro hall
        exact absurd (hall (k, w) (List.mem_cons_self _ _)) (not_lt.mpr hk)
    · rename_i hk
      rw [ih]
      constructor
      · intro hall p hp
        rcases List.mem_cons.mp hp with h' | h'
        · rw [h']; exact not_le.mp hk
        · exact hall p h'
      · intro hall p hp
        exact hall p (List.mem_cons_of_mem _ hp)

theorem floorItem_maximal (s : Store) (t : ℝ) (hs : SortedKeys s) (p : DataPoint)
    (h : floorItem s t = some p) : ∀ q ∈ s, q.1 ≤ t → q.1 ≤ p.1 := by
  induction s with
  | nil => simp [floorItem] at h
  | cons r rest ih =>
    obtain ⟨k, w⟩ := r
    rw [SortedKeys, List.pairwise_cons] at hs
    obtain ⟨hk, hrest⟩ := hs
    simp only [floorItem] at h
    split at h
    · rename_i hkt
      cases hf : floorItem rest t with
      | some p' =>
        rw [hf] at h
        simp only [Option.some.injEq] at h
        rw [h] at hf
        intro q hq hqt
        rcases List.mem_cons.mp hq with h' | h'
        · rw [h']
          exact le_of_lt (hk p (floorItem_mem rest t p hf))
        · exact ih hrest hf q h' hqt
      | none =>
        rw [hf] at h
        simp only [Option.some.injEq] at h
        rw [← h]
        intro q hq hqt
        rcases List.mem_cons.mp hq with h' | h'
        · rw [h']
        · exact absurd hqt (not_le.mpr ((floorItem_eq_none_iff rest t hrest).mp hf q h'))
    · exact absurd h (by simp)

theorem ceilingItem_minimal (s : Store) (t : ℝ) (hs : SortedKeys s) (p : DataPoint)
    (h : ceilingItem s t = some p) : ∀ q ∈ s, t ≤ q.1 → p.1 ≤ q.1 := by
  induction s with
  | nil => simp [ceilingItem] at h
  | cons r rest ih =>
    obtain ⟨k, w⟩ := r
    rw [SortedKeys, List.pairwise_cons] at hs
    obtain ⟨hk, hrest⟩ := hs
    simp only [ceilingItem] at h
    split at h
    · rename_i hkt
      simp only [Option.some.injEq] at h
      subst h
      intro q hq hqt
      rcases List.mem_cons.mp hq with h' | h'
      · rw [h']
      · exact le_of_lt (hk q h')
    · rename_i hkt
      intro q hq hqt
      rcases List.mem_cons.mp hq with h' | h'
      · rw [h'] at hqt
        exact absurd hqt hkt
      · exact ih hrest h q h' hqt

theorem floorItem_self (s : Store) (t v : ℝ) (hs : SortedKeys s)
    (hmem : (t, v) ∈ s) : floorItem s t = some (t, v) := by
  induction s with
  | nil => simp at hmem
  | cons r rest ih =>
    obtain ⟨k, w⟩ := r
    rw [SortedKeys, List.pairwise_cons] at hs
    obtain ⟨hk, hrest⟩ := hs
    rcases List.mem_cons.mp hmem with h | h
    · obtain ⟨h1, h2⟩ := Prod.mk.injEq .. ▸ h
      subst h1; subst h2
      simp only [floorItem, if_pos (le_refl t)]
      have : floorItem rest t = none :=
        (floorItem_eq_none_iff rest t hrest).mpr (fun p hp => hk p hp)
      rw [this]
    · have hkt : k < t := hk (t, v) h
      simp only [floorItem, if_pos (le_of_lt hkt)]
      rw [ih hrest h]

theorem ceilingItem_self (s : Store) (t v : ℝ) (hs : SortedKeys s)
    (hmem : (t, v) ∈ s) : ceilingItem s t = some (t, v) := by
  induction s with
  | nil => simp at hmem
  | cons r rest ih =>
    obtain ⟨k, w⟩ := r
    rw [SortedKeys, List.pairwise_cons] at hs
    obtain ⟨hk, hrest⟩ := hs
    rcases List.mem_cons.mp hmem with h | h
    · obtain ⟨h1, h2⟩ := Prod.mk.injEq .. ▸ h
      subst h1; subst h2
      simp [ceilingItem]
    · have hkt : k < t := hk (t, v) h
      simp only [ceilingItem, if_neg (not_le.mpr hkt)]
      exact ih hrest h

theorem sortedKeys_key_unique (s : Store) (hs : SortedKeys s) (p q : DataPoint)
    (hp : p ∈ s) (hq : q ∈ s) (h : p.1 = q.1) : p = q := by
  induction s with
  | nil => simp at hp
  | cons r rest ih =>
    rw [SortedKeys, List.pairwise_cons] at hs
    obtain ⟨hr, hrest⟩ := hs
    rcases List.mem_cons.mp hp with hp' | hp' <;>
      rcases List.mem_cons.mp hq with hq' | hq'
    · rw [hp', hq']
    · exact absurd (h ▸ hr q hq') (by rw [hp']; exact lt_irrefl _)
    · exact absurd (h ▸ hr p hp') (by rw [hq']; simp)
    · exact ih hrest hp' hq'

theorem minKey_le_of_mem (s : Store) (hs : SortedKeys s) (p : DataPoint)
    (hp : p ∈ s) (m : ℝ) (hm : storeMinKey? s = some m) : m ≤ p.1 := by
  cases s with
  | nil => simp at hp
  | cons r rest =>
    rw [SortedKeys, List.pairwise_cons] at hs
    obtain ⟨hr, hrest⟩ := hs
    simp only [storeMinKey?, List.head?_cons, Option.map_some', Option.some.injEq] at hm
    subst hm
    rcases List.mem_cons.mp hp with h | h
    · rw [h]
    · exact le_of_lt (hr p h)

theorem le_maxKey_of_mem (s : Store) (hs : SortedKeys s) (m : ℝ)
    (hm : storeMaxKey? s = some m) : ∀ p ∈ s, p.1 ≤ m := by
  induction s with
  | nil => intro p hp; simp at hp
  | cons r rest ih =>
    rw [SortedKeys, List.pairwise_cons] at hs
    obtain ⟨hr, hrest⟩ := hs
    cases rest with
    | nil =>
      simp only [storeMaxKey?, List.getLast?_singleton, Option.map_some',
        Option.some.injEq] at hm
      intro p hp
      rcases List.mem_cons.mp hp with h | h
      · rw [h, ← hm]
      · simp at h
    | cons r' rest' =>
      have hm' : storeMaxKey? (r' :: rest') = some m := by
        simpa only [storeMaxKey?, List.getLast?_cons_cons] using hm
      intro p hp
      rcases List.mem_cons.mp hp with h | h
      · have hr' : r'.1 ≤ m := ih hrest hm' r' (List.mem_cons_self _ _)
        rw [h]
        exact le_of_lt (lt_of_lt_of_le (hr r' (List.mem_cons_self _ _)) hr')
      · exact ih hrest hm' p h

theorem zpow_negTwo_eq_inv_sq (x : ℝ) : x ^ (-2 : ℤ) = x⁻¹ ^ 2 := by
  rw [zpow_neg, inv_pow]; norm_cast

theorem getMartingaleRelevantPoints_eq (s : Store) (t : ℝ) (hs : SortedKeys s) :
    getMartingaleRelevantPoints s t = (floorItem s t, ceilingItem s t) := by
  cases s with
  | nil => simp [getMartingaleRelevantPoints, floorItem, ceilingItem]
  | cons r rest =>
    obtain ⟨k, w⟩ := r
    cases hm : storeMaxKey? ((k, w) :: rest) with
    | none =>
      exfalso
      simp only [storeMaxKey?, Option.map_eq_none'] at hm
      exact absurd (List.getLast?_eq_none_iff.mp hm) (by simp)
    | some m =>
      simp only [getMartingaleRelevantPoints, List.isEmpty_cons, Bool.false_eq_true,
        if_false, storeMinKey?, List.head?_cons, Option.map_some', hm]
      refine Prod.ext ?_ ?_
      · by_cases hk : k ≤ t
        · simp [hk]
        · simp only [if_neg hk]
          have : floorItem ((k, w) :: rest) t = none := by
            simp [floorItem, hk]
          rw [this]
      · by_cases ht : t ≤ m
        · simp [ht]
        · simp only [if_neg ht]
          have : ceilingItem ((k, w) :: rest) t = none := by
            rw [ceilingItem_eq_none_iff]
            intro p hp
            exact lt_of_le_of_lt (le_maxKey_of_mem _ hs m hm p hp) (not_le.mp ht)
          rw [this]

/-! Branch-reduction lemmas for `getPossibleValueDistr`. -/

theorem distr_branch_error (bv : BrownianVariable) (t : ℝ)
    (hm : getMartingaleRelevantPoints bv.history t = (none, none)) :
    bv.getPossibleValueDistr t = .error .historyCorruption := by
  unfold BrownianVariable.getPossibleValueDistr
  rw [hm]

theorem distr_branch_left_only (bv : BrownianVariable) (t tL vL : ℝ)
    (hm : getMartingaleRelevantPoints bv.history t = (some (tL, vL), none)) :
    bv.getPossibleValueDistr t =
      if tL = t then .ok ⟨vL, 0⟩
      else .ok ⟨(getDistribution t tL vL bv.sigma bv.drift).1,
        (getDistribution t tL vL bv.sigma bv.drift).2⟩ := by
  unfold BrownianVariable.getPossibleValueDistr
  rw [hm]

theorem distr_branch_right_only (bv : BrownianVariable) (t tR vR : ℝ)
    (hm : getMartingaleRelevantPoints bv.history t = (none, some (tR, vR))) :
    bv.getPossibleValueDistr t =
      if tR = t then .ok ⟨vR, 0⟩
      else .ok ⟨(getDistribution t tR vR bv.sigma bv.drift).1,
        (getDistribution t tR vR bv.sigma bv.drift).2⟩ := by
  unfold BrownianVariable.getPossibleValueDistr
  rw [hm]

theorem distr_branch_both (bv : BrownianVariable) (t tL vL tR vR : ℝ)
    (hm : getMartingaleRelevantPoints bv.history t = (some (tL, vL), some (tR, vR))) :
    bv.getPossibleValueDistr t =
      if tL = t then .ok ⟨vL, 0⟩
      else if tR = t then .ok ⟨vR, 0⟩
      else .ok ⟨(getSandwichDistribution t tL vL tR vR bv.sigma bv.drift).1,
        (getSandwichDistribution t tL vL tR vR bv.sigma bv.drift).2⟩ := by
  unfold BrownianVariable.getPossibleValueDistr
  rw [hm]

theorem getMart_ne_none_none (s : Store) (t : ℝ) (hs : SortedKeys s)
    (hne : s ≠ []) : getMartingaleRelevantPoints s t ≠ (none, none) := by
  rw [getMartingaleRelevantPoints_eq s t hs]
  intro h
  have h1 : floorItem s t = none := congrArg Prod.fst h
  have h2 : ceilingItem s t = none := congrArg Prod.snd h
  match s, hne with
  | (k, v) :: rest, _ =>
    have ha := (floorItem_eq_none_iff _ t hs).mp h1 (k, v) (List.mem_cons_self _ _)
    have hb := (ceilingItem_eq_none_iff _ t).mp h2 (k, v) (List.mem_cons_self _ _)
    exact absurd (lt_trans ha hb) (lt_irrefl _)

theorem getPossibleValueDistr_isOk (bv : BrownianVariable) (t : ℝ)
    (hs : SortedKeys bv.history) (hne : bv.history ≠ []) :
    ∃ d, bv.getPossibleValueDistr t = .ok d := by
  rcases hm : getMartingaleRelevantPoints bv.history t with ⟨l, r⟩
  match l, r, hm with
  | none, none, hm => exact absurd hm (getMart_ne_none_none _ t hs hne)
  | some (tL, vL), none, hm =>
    rw [distr_branch_left_only bv t tL vL hm]
    by_cases h : tL = t
    · rw [if_pos h]; exact ⟨_, rfl⟩
    · rw [if_neg h]; exact ⟨_, rfl⟩
  | none, some (tR, vR), hm =>
    rw [distr_branch_right_only bv t tR vR hm]
    by_cases h : tR = t
    · rw [if_pos h]; exact ⟨_, rfl⟩
    · rw [if_neg h]; exact ⟨_, rfl⟩
  | some (tL, vL), some (tR, vR), hm =>
    rw [distr_branch_both bv t tL vL tR vR hm]
    by_cases h : tL = t
    · rw [if_pos h]; exact ⟨_, rfl⟩
    · rw [if_neg h]
      by_cases h' : tR = t
      · rw [if_pos h']; exact ⟨_, rfl⟩
      · rw [if_neg h']; exact ⟨_, rfl⟩

/-- C2: for every Brownian process and every time `t` at which an
observation `(t, v)` is stored in its history, `getPossibleValueDistr t`
returns the degenerate (point-mass) distribution with mean the observed
value `v` and standard deviation `0`. -/
theorem exactMatch_pointMass (bv : BrownianVariable) (t v : ℝ)
    (hs : SortedKeys bv.history) (hmem : (t, v) ∈ bv.history) :
    bv.getPossibleValueDistr t = .ok ⟨v, 0⟩ := by
  have hm : getMartingaleRelevantPoints bv.history t = (some (t, v), some (t, v)) := by
    rw [getMartingaleRelevantPoints_eq _ _ hs, floorItem_self _ _ _ hs hmem,
      ceilingItem_self _ _ _ hs hmem]
  rw [distr_branch_both bv t t v t v hm, if_pos rfl]

/-- Witness for C2 at the concrete history [(0, 0), (2, 4)] queried at
the stored time 2. -/
theorem exactMatch_pointMass_witness :
    SortedKeys [((0 : ℝ), (0 : ℝ)), (2, 4)] ∧
    ((2 : ℝ), (4 : ℝ)) ∈ [((0 : ℝ), (0 : ℝ)), (2, 4)] ∧
    BrownianVariable.getPossibleValueDistr ⟨1, 0, 0, 0, [(0, 0), (2, 4)]⟩ 2 =
      .ok ⟨4, 0⟩ := by
  refine ⟨?_, ?_, ?_⟩
  · simp [SortedKeys, List.pairwise_cons]
  · simp
  · exact exactMatch_pointMass ⟨1, 0, 0, 0, [(0, 0), (2, 4)]⟩ 2 4
      (by simp [SortedKeys, List.pairwise_cons]) (by simp)

/-- C3: with only a left neighbour `(tL, vL)` (no stored key at or above
`t`), `getPossibleValueDistr t` is the forward projection with mean
`vL + drift * (t - tL)` and standard deviation `sigma * sqrt (t - tL)`;
symmetrically, with only a right neighbour `(tR, vR)` it is the backward
projection with mean `vR + drift * (t - tR)` and standard deviation
`sigma * sqrt (tR - t)`. -/
theorem oneSided_projection (bv : BrownianVariable) (t tL vL tR vR : ℝ)
    (hs : SortedKeys bv.history) :
    (getMartingaleRelevantPoints bv.history t = (some (tL, vL), none) →
      bv.getPossibleValueDistr t =
        .ok ⟨vL + bv.drift * (t - tL), bv.sigma * Real.sqrt (t - tL)⟩) ∧
    (getMartingaleRelevantPoints bv.history t = (none, some (tR, vR)) →
      bv.getPossibleValueDistr t =
        .ok ⟨vR + bv.drift * (t - tR), bv.sigma * Real.sqrt (tR - t)⟩) := by
  constructor
  · intro hm
    have hmart := getMartingaleRelevantPoints_eq bv.history t hs
    rw [hm] at hmart
    have hf : floorItem bv.history t = some (tL, vL) := (congrArg Prod.fst hmart).symm
    have hc : ceilingItem bv.history t = none := (congrArg Prod.snd hmart).symm
    have hmem : (tL, vL) ∈ bv.history := floorItem_mem _ t _ hf
    have hlt : tL < t := (ceilingItem_eq_none_iff bv.history t).mp hc (tL, vL) hmem
    rw [distr_branch_left_only bv t tL vL hm, if_neg (ne_of_lt hlt)]
    simp only [getDistribution]
    refine congrArg Except.ok ?_
    have habs : |t - tL| = t - tL := abs_of_pos (sub_pos.mpr hlt)
    rw [NormalDistr.mk.injEq]
    constructor
    · ring
    · rw [habs]; ring
  · intro hm
    have hmart := getMartingaleRelevantPoints_eq bv.history t hs
    rw [hm] at hmart
    have hf : floorItem bv.history t = none := (congrArg Prod.fst hmart).symm
    have hc : ceilingItem bv.history t = some (tR, vR) := (congrArg Prod.snd hmart).symm
    have hmem : (tR, vR) ∈ bv.history := ceilingItem_mem _ t _ hc
    have hlt : t < tR := (floorItem_eq_none_iff bv.history t hs).mp hf (tR, vR) hmem
    rw [distr_branch_right_only bv t tR vR hm, if_neg (ne_of_gt hlt)]
    simp only [getDistribution]
    refine congrArg Except.ok ?_
    have habs : |t - tR| = tR - t := by
      rw [abs_sub_comm]
      exact abs_of_pos (sub_pos.mpr hlt)
    rw [NormalDistr.mk.injEq]
    constructor
    · ring
    · rw [habs]; ring

/-- Witness for C3: history [(0, 0)] queried at t = 1 exercises the
left-only branch. -/
theorem oneSided_projection_witness :
    SortedKeys [((0 : ℝ), (0 : ℝ))] ∧
    getMartingaleRelevantPoints [((0 : ℝ), (0 : ℝ))] 1 = (some (0, 0), none) ∧
    BrownianVariable.getPossibleValueDistr ⟨1, 0, 0, 0, [(0, 0)]⟩ 1 =
      .ok ⟨0 + 0 * ((1 : ℝ) - 0), 1 * Real.sqrt ((1 : ℝ) - 0)⟩ := by
  have hs : SortedKeys [((0 : ℝ), (0 : ℝ))] := by simp [SortedKeys]
  have hm : getMartingaleRelevantPoints [((0 : ℝ), (0 : ℝ))] 1 = (some (0, 0), none) := by
    rw [getMartingaleRelevantPoints_eq _ _ hs]
    norm_num [floorItem, ceilingItem]
  exact ⟨hs, hm, (oneSided_projection ⟨1, 0, 0, 0, [(0, 0)]⟩ 1 0 0 0 0 hs).1 hm⟩

/-- C1: when the history returns a strict left neighbour `(tL, vL)` and a
strict right neighbour `(tR, vR)` of the query time (`tL < t < tR`),
`getPossibleValueDistr t` is the precision-weighted fusion of the two
one-sided projections: with `mL = vL + drift * (t - tL)`,
`mR = vR + drift * (t - tR)`, `sdL = sigma * sqrt |t - tL|`,
`sdR = sigma * sqrt |t - tR|`, `pL = sdL⁻¹ ^ 2` and `pR = sdR⁻¹ ^ 2`, the
mean is `(pL * mL + pR * mR) / (pL + pR)` and the standard deviation is
`sqrt (sdL ^ 2 * sdR ^ 2 / (sdL ^ 2 + sdR ^ 2))`. -/
theorem sandwich_fusion (bv : BrownianVariable) (t tL vL tR vR : ℝ)
    (hm : getMartingaleRelevantPoints bv.history t = (some (tL, vL), some (tR, vR)))
    (htL : tL < t) (htR : t < tR) :
    bv.getPossibleValueDistr t =
      .ok ⟨((bv.sigma * Real.sqrt |t - tL|)⁻¹ ^ 2 * (vL + bv.drift * (t - tL)) +
            (bv.sigma * Real.sqrt |t - tR|)⁻¹ ^ 2 * (vR + bv.drift * (t - tR))) /
          ((bv.sigma * Real.sqrt |t - tL|)⁻¹ ^ 2 + (bv.sigma * Real.sqrt |t - tR|)⁻¹ ^ 2),
        Real.sqrt ((bv.sigma * Real.sqrt |t - tL|) ^ 2 * (bv.sigma * Real.sqrt |t - tR|) ^ 2 /
          ((bv.sigma * Real.sqrt |t - tL|) ^ 2 + (bv.sigma * Real.sqrt |t - tR|) ^ 2))⟩ := by
  rw [distr_branch_both bv t tL vL tR vR hm, if_neg (ne_of_lt htL), if_neg (ne_of_gt htR)]
  simp only [getSandwichDistribution, getDistribution]
  refine congrArg Except.ok ?_
  rw [NormalDistr.mk.injEq]
  constructor
  · simp only [zpow_negTwo_eq_inv_sq]
    ring
  · refine congrArg Real.sqrt ?_
    ring

/-- Witness for C1: history [(0, 0), (2, 4)] queried at t = 1, with
sigma = 1 and drift = 0. -/
theorem sandwich_fusion_witness :
    getMartingaleRelevantPoints [((0 : ℝ), (0 : ℝ)), (2, 4)] 1 =
      (some (0, 0), some (2, 4)) ∧
    ((0 : ℝ) < 1 ∧ (1 : ℝ) < 2) ∧
    BrownianVariable.getPossibleValueDistr ⟨1, 0, 0, 0, [(0, 0), (2, 4)]⟩ 1 =
      .ok ⟨((1 * Real.sqrt |(1 : ℝ) - 0|)⁻¹ ^ 2 * (0 + 0 * ((1 : ℝ) - 0)) +
            (1 * Real.sqrt |(1 : ℝ) - 2|)⁻¹ ^ 2 * (4 + 0 * ((1 : ℝ) - 2))) /
          ((1 * Real.sqrt |(1 : ℝ) - 0|)⁻¹ ^ 2 + (1 * Real.sqrt |(1 : ℝ) - 2|)⁻¹ ^ 2),
        Real.sqrt ((1 * Real.sqrt |(1 : ℝ) - 0|) ^ 2 * (1 * Real.sqrt |(1 : ℝ) - 2|) ^ 2 /
          ((1 * Real.sqrt |(1 : ℝ) - 0|) ^ 2 + (1 * Real.sqrt |(1 : ℝ) - 2|) ^ 2))⟩ := by
  have hs : SortedKeys [((0 : ℝ), (0 : ℝ)), (2, 4)] := by
    simp [SortedKeys, List.pairwise_cons]
  have hm : getMartingaleRelevantPoints [((0 : ℝ), (0 : ℝ)), (2, 4)] 1 =
      (some (0, 0), some (2, 4)) := by
    rw [getMartingaleRelevantPoints_eq _ _ hs]
    norm_num [floorItem, ceilingItem]
  exact ⟨hm, ⟨by norm_num, by norm_num⟩,
    sandwich_fusion ⟨1, 0, 0, 0, [(0, 0), (2, 4)]⟩ 1 0 0 2 4 hm
      (by norm_num) (by norm_num)⟩

/-- C5: on a well-formed history, `getMartingaleRelevantPoints t` returns
as left point exactly the stored observation with the largest key at most
`t` (`none` when no key is at most `t`) and as right point exactly the one
with the smallest key at least `t` (`none` when no key is at least `t`);
when both exist their keys bracket `t`, and when `t` is itself stored the
pair is that observation twice. -/
theorem getMartingaleRelevantPoints_spec (hist : Store) (t : ℝ)
    (hs : SortedKeys hist) :
    (∀ p : DataPoint, (getMartingaleRelevantPoints hist t).1 = some p ↔
      (p ∈ hist ∧ p.1 ≤ t ∧ ∀ q ∈ hist, q.1 ≤ t → q.1 ≤ p.1)) ∧
    ((getMartingaleRelevantPoints hist t).1 = none ↔ ∀ p ∈ hist, t < p.1) ∧
    (∀ p : DataPoint, (getMartingaleRelevantPoints hist t).2 = some p ↔
      (p ∈ hist ∧ t ≤ p.1 ∧ ∀ q ∈ hist, t ≤ q.1 → p.1 ≤ q.1)) ∧
    ((getMartingaleRelevantPoints hist t).2 = none ↔ ∀ p ∈ hist, p.1 < t) ∧
    (∀ p q : DataPoint, (getMartingaleRelevantPoints hist t).1 = some p →
      (getMartingaleRelevantPoints hist t).2 = some q → p.1 ≤ t ∧ t ≤ q.1) ∧
    (∀ v : ℝ, (t, v) ∈ hist →
      getMartingaleRelevantPoints hist t = (some (t, v), some (t, v))) := by
  rw [getMartingaleRelevantPoints_eq hist t hs]
  refine ⟨?_, ?_, ?_, ?_, ?_, ?_⟩
  · intro p
    constructor
    · intro h
      exact ⟨floorItem_mem _ t p h, floorItem_key_le _ t p h,
        floorItem_maximal _ t hs p h⟩
    · rintro ⟨hmem, hle, hmax⟩
      cases hf : floorItem hist t with
      | none =>
        exact absurd hle (not_le.mpr ((floorItem_eq_none_iff hist t hs).mp hf p hmem))
      | some r =>
        have h1 : r.1 ≤ p.1 := hmax r (floorItem_mem _ t r hf) (floorItem_key_le _ t r hf)
        have h2 : p.1 ≤ r.1 := floorItem_maximal _ t hs r hf p hmem hle
        have hrp : r = p := sortedKeys_key_unique hist hs r p
          (floorItem_mem _ t r hf) hmem (le_antisymm h1 h2)
        simp [hrp]
  · exact floorItem_eq_none_iff hist t hs
  · intro p
    constructor
    · intro h
      exact ⟨ceilingItem_mem _ t p h, ceilingItem_key_ge _ t p h,
        ceilingItem_minimal _ t hs p h⟩
    · rintro ⟨hmem, hge, hmin⟩
      cases hc : ceilingItem hist t with
      | none =>
        exact absurd hge (not_le.mpr ((ceilingItem_eq_none_iff hist t).mp hc p hmem))
      | some r =>
        have h1 : p.1 ≤ r.1 := hmin r (ceilingItem_mem _ t r hc) (ceilingItem_key_ge _ t r hc)
        have h2 : r.1 ≤ p.1 := ceilingItem_minimal _ t hs r hc p hmem hge
        have hrp : r = p := sortedKeys_key_unique hist hs r p
          (ceilingItem_mem _ t r hc) hmem (le_antisymm h2 h1)
        simp [hrp]
  · exact ceilingItem_eq_none_iff hist t
  · intro p q hp hq
    exact ⟨floorItem_key_le _ t p hp, ceilingItem_key_ge _ t q hq⟩
  · intro v hmem
    rw [floorItem_self _ _ _ hs hmem, ceilingItem_self _ _ _ hs hmem]

/-- Witness for C5 at the history [(0, 0), (2, 4)] and key t = 1. -/
theorem getMartingaleRelevantPoints_spec_witness :
    SortedKeys [((0 : ℝ), (0 : ℝ)), (2, 4)] ∧
    ((∀ p : DataPoint,
        (getMartingaleRelevantPoints [((0 : ℝ), (0 : ℝ)), (2, 4)] 1).1 = some p ↔
        (p ∈ [((0 : ℝ), (0 : ℝ)), (2, 4)] ∧ p.1 ≤ 1 ∧
          ∀ q ∈ [((0 : ℝ), (0 : ℝ)), (2, 4)], q.1 ≤ 1 → q.1 ≤ p.1)) ∧
      ((getMartingaleRelevantPoints [((0 : ℝ), (0 : ℝ)), (2, 4)] 1).1 = none ↔
        ∀ p ∈ [((0 : ℝ), (0 : ℝ)), (2, 4)], (1 : ℝ) < p.1) ∧
      (∀ p : DataPoint,
        (getMartingaleRelevantPoints [((0 : ℝ), (0 : ℝ)), (2, 4)] 1).2 = some p ↔
        (p ∈ [((0 : ℝ), (0 : ℝ)), (2, 4)] ∧ 1 ≤ p.1 ∧
          ∀ q ∈ [((0 : ℝ), (0 : ℝ)), (2, 4)], 1 ≤ q.1 → p.1 ≤ q.1)) ∧
      ((getMartingaleRelevantPoints [((0 : ℝ), (0 : ℝ)), (2, 4)] 1).2 = none ↔
        ∀ p ∈ [((0 : ℝ), (0 : ℝ)), (2, 4)], p.1 < 1) ∧
      (∀ p q : DataPoint,
        (getMartingaleRelevantPoints [((0 : ℝ), (0 : ℝ)), (2, 4)] 1).1 = some p →
        (getMartingaleRelevantPoints [((0 : ℝ), (0 : ℝ)), (2, 4)] 1).2 = some q →
        p.1 ≤ 1 ∧ 1 ≤ q.1) ∧
      (∀ v : ℝ, ((1 : ℝ), v) ∈ [((0 : ℝ), (0 : ℝ)), (2, 4)] →
        getMartingaleRelevantPoints [((0 : ℝ), (0 : ℝ)), (2, 4)] 1 =
          (some (1, v), some (1, v)))) := by
  have hs : SortedKeys [((0 : ℝ), (0 : ℝ)), (2, 4)] := by
    simp [SortedKeys, List.pairwise_cons]
  exact ⟨hs, getMartingaleRelevantPoints_spec [((0 : ℝ), (0 : ℝ)), (2, 4)] 1 hs⟩

/-! Reduction of the guarded floor/ceiling lookups the interpolators and
the history share: on a well-formed store, the `min_key`/`max_key` guards
never change the result of `floor_item`/`ceiling_item`. -/

theorem guardedFloor_eq (hist : Store) (x : ℝ) :
    (match storeMinKey? hist with
     | some m => if m ≤ x then floorItem hist x else none
     | none => none) = floorItem hist x := by
  cases hist with
  | nil => simp [storeMinKey?, floorItem]
  | cons q rest =>
    obtain ⟨k, w⟩ := q
    simp only [storeMinKey?, List.head?_cons, Option.map_some']
    by_cases hk : k ≤ x
    · rw [if_pos hk]
    · rw [if_neg hk]
      simp [floorItem, hk]

theorem guardedCeiling_eq (hist : Store) (x : ℝ) (hs : SortedKeys hist) :
    (match storeMaxKey? hist with
     | some m => if x ≤ m then ceilingItem hist x else none
     | none => none) = ceilingItem hist x := by
  cases hm : storeMaxKey? hist with
  | none =>
    simp only [storeMaxKey?, Option.map_eq_none'] at hm
    rw [List.getLast?_eq_none_iff.mp hm]
    simp [ceilingItem]
  | some m =>
    show (if x ≤ m then ceilingItem hist x else none) = ceilingItem hist x
    by_cases hx : x ≤ m
    · rw [if_pos hx]
    · rw [if_neg hx]
      symm
      rw [ceilingItem_eq_none_iff]
      intro p hp
      exact lt_of_le_of_lt (le_maxKey_of_mem hist hs m hm p hp) (not_le.mp hx)

/-- C6: when the store holds a strict left neighbour `(xL, vL)` and a
strict right neighbour `(xR, vR)` of a query `x` that is not itself a
stored key, `LinearStreamingInterpolator.getInterpolatedVal x` is the
inverse-distance-weighted average
`(|x - xR| * vL + |x - xL| * vR) / (|x - xR| + |x - xL|)`. -/
theorem linear_interpolation_weighted (hist : Store) (x xL vL xR vR : ℝ)
    (hs : SortedKeys hist)
    (hf : floorItem hist x = some (xL, vL))
    (hc : ceilingItem hist x = some (xR, vR))
    (hxL : xL < x) (hxR : x < xR) :
    linearGetInterpolatedVal hist x =
      some ((|x - xR| * vL + |x - xL| * vR) / (|x - xR| + |x - xL|)) := by
  have hne : hist ≠ [] := by
    intro h; rw [h] at hf; simp [floorItem] at hf
  unfold linearGetInterpolatedVal
  rw [if_neg (by simpa using hne)]
  simp only [guardedFloor_eq hist x, guardedCeiling_eq hist x hs]
  simp only [hf, hc]
  rw [if_neg (ne_of_lt hxL), if_neg (ne_of_gt hxR), add_comm |x - xL| |x - xR|]

/-- Witness for C6: store [(0, 0), (10, 100)], query x = 4, with the
specialisation to the claimed value 40. -/
theorem linear_interpolation_weighted_witness :
    SortedKeys [((0 : ℝ), (0 : ℝ)), (10, 100)] ∧
    floorItem [((0 : ℝ), (0 : ℝ)), (10, 100)] 4 = some (0, 0) ∧
    ceilingItem [((0 : ℝ), (0 : ℝ)), (10, 100)] 4 = some (10, 100) ∧
    ((0 : ℝ) < 4 ∧ (4 : ℝ) < 10) ∧
    linearGetInterpolatedVal [((0 : ℝ), (0 : ℝ)), (10, 100)] 4 = some 40 := by
  have hs : SortedKeys [((0 : ℝ), (0 : ℝ)), (10, 100)] := by
    simp [SortedKeys, List.pairwise_cons]
  have hf : floorItem [((0 : ℝ), (0 : ℝ)), (10, 100)] 4 = some (0, 0) := by
    norm_num [floorItem]
  have hc : ceilingItem [((0 : ℝ), (0 : ℝ)), (10, 100)] 4 = some (10, 100) := by
    norm_num [ceilingItem]
  refine ⟨hs, hf, hc, ⟨by norm_num, by norm_num⟩, ?_⟩
  have h := linear_interpolation_weighted [((0 : ℝ), (0 : ℝ)), (10, 100)] 4 0 0 10 100
    hs hf hc (by norm_num) (by norm_num)
  rw [h]
  norm_num [abs_of_nonneg, abs_of_nonpos]

/-- C7: when the store holds a left neighbour `(xL, vL)` and a right
neighbour `(xR, vR)` of `x`,
`NearestNeighborStreamingInterpolator.getInterpolatedVal x` returns the
value of the strictly closer neighbour, and the right neighbour's value on
a distance tie. -/
theorem nearestNeighbor_selection (hist : Store) (x xL vL xR vR : ℝ)
    (hs : SortedKeys hist)
    (hf : floorItem hist x = some (xL, vL))
    (hc : ceilingItem hist x = some (xR, vR)) :
    (|x - xL| < |x - xR| → nearestNeighborGetInterpolatedVal hist x = some vL) ∧
    (|x - xR| < |x - xL| → nearestNeighborGetInterpolatedVal hist x = some vR) ∧
    (|x - xL| = |x - xR| → nearestNeighborGetInterpolatedVal hist x = some vR) := by
  have hne : hist ≠ [] := by
    intro h; rw [h] at hf; simp [floorItem] at hf
  have hred : nearestNeighborGetInterpolatedVal hist x =
      if |x - xL| < |x - xR| then some vL else some vR := by
    unfold nearestNeighborGetInterpolatedVal
    rw [if_neg (by simpa using hne)]
    simp only [guardedFloor_eq hist x, guardedCeiling_eq hist x hs]
    simp only [hf, hc]
  refine ⟨?_, ?_, ?_⟩
  · intro h; rw [hred, if_pos h]
  · intro h; rw [hred, if_neg (not_lt.mpr (le_of_lt h))]
  · intro h; rw [hred, if_neg (not_lt.mpr (le_of_eq h.symm))]

/-- Witness for C7: store [(0, 0), (10, 100)], query x = 7, which is
strictly closer to the right neighbour, giving 100. -/
theorem nearestNeighbor_selection_witness :
    SortedKeys [((0 : ℝ), (0 : ℝ)), (10, 100)] ∧
    floorItem [((0 : ℝ), (0 : ℝ)), (10, 100)] 7 = some (0, 0) ∧
    ceilingItem [((0 : ℝ), (0 : ℝ)), (10, 100)] 7 = some (10, 100) ∧
    |(7 : ℝ) - 10| < |(7 : ℝ) - 0| ∧
    nearestNeighborGetInterpolatedVal [((0 : ℝ), (0 : ℝ)), (10, 100)] 7 =
      some 100 := by
  have hs : SortedKeys [((0 : ℝ), (0 : ℝ)), (10, 100)] := by
    simp [SortedKeys, List.pairwise_cons]
  have hf : floorItem [((0 : ℝ), (0 : ℝ)), (10, 100)] 7 = some (0, 0) := by
    norm_num [floorItem]
  have hc : ceilingItem [((0 : ℝ), (0 : ℝ)), (10, 100)] 7 = some (10, 100) := by
    norm_num [ceilingItem]
  have hlt : |(7 : ℝ) - 10| < |(7 : ℝ) - 0| := by
    rw [show |(7 : ℝ) - 10| = 3 by rw [abs_sub_comm]; norm_num [abs_of_nonneg],
      show |(7 : ℝ) - 0| = 7 by norm_num [abs_of_nonneg]]
    norm_num
  exact ⟨hs, hf, hc, hlt,
    (nearestNeighbor_selection [((0 : ℝ), (0 : ℝ)), (10, 100)] 7 0 0 10 100
      hs hf hc).2.1 hlt⟩

/-- The states a `BrownianVariable` can be in: constructed through
`__init__` on a well-formed history object and then mutated only by
`insertData`, `getValue` and `getValues`. -/
inductive Reachable : BrownianVariable → Prop where
  | init (sigma startTime startVal drift : ℝ) (h0 : Store) (bv : BrownianVariable)
      (hs : SortedKeys h0)
      (h : mkBrownianVariable sigma startTime startVal drift h0 = .ok bv) :
      Reachable bv
  | insertData (bv : BrownianVariable) (t v : ℝ) (h : Reachable bv) :
      Reachable { bv with history := storeInsert bv.history t v }
  | getValue (bv bv' : BrownianVariable) (draw : ℝ → ℝ → ℝ) (t : ℝ) (st : Bool)
      (val : ℝ) (h : Reachable bv) (hstep : bv.getValue draw t st = .ok (val, bv')) :
      Reachable bv'
  | getValues (bv bv' : BrownianVariable) (sampler : ℕ → ℝ → ℝ → ℝ) (ts : List ℝ)
      (vals : List ℝ) (h : Reachable bv)
      (hstep : bv.getValues sampler ts = .ok (vals, bv')) :
      Reachable bv'

theorem getValue_ok_history (bv bv' : BrownianVariable) (draw : ℝ → ℝ → ℝ)
    (t : ℝ) (st : Bool) (val : ℝ) (h : bv.getValue draw t st = .ok (val, bv')) :
    bv'.history = bv.history ∨ ∃ tv, bv'.history = storeInsert bv.history t tv := by
  unfold BrownianVariable.getValue at h
  cases hd : bv.getPossibleValueDistr t with
  | error e => rw [hd] at h; exact absurd h (by simp)
  | ok d =>
    rw [hd] at h
    cases st with
    | false =>
      simp only [Bool.false_eq_true, if_false, Except.ok.injEq, Prod.mk.injEq] at h
      left
      rw [← h.2]
    | true =>
      simp only [if_true, Except.ok.injEq, Prod.mk.injEq] at h
      right
      exact ⟨draw d.loc d.scale, by rw [← h.2]⟩

theorem getValue_ok_invariant (bv bv' : BrownianVariable) (draw : ℝ → ℝ → ℝ)
    (t : ℝ) (st : Bool) (val : ℝ) (h : bv.getValue draw t st = .ok (val, bv'))
    (hinv : bv.history ≠ [] ∧ SortedKeys bv.history) :
    bv'.history ≠ [] ∧ SortedKeys bv'.history := by
  rcases getValue_ok_history bv bv' draw t st val h with heq | ⟨tv, heq⟩
  · rw [heq]; exact hinv
  · rw [heq]
    exact ⟨storeInsert_ne_nil _ _ _, sortedKeys_storeInsert _ _ _ hinv.2⟩

theorem getValuesLoop_ok_invariant (sampler : ℕ → ℝ → ℝ → ℝ) (tList : List ℝ)
    (is : List ℕ) (bv : BrownianVariable) (k : ℕ) (pairs : List (ℕ × ℝ))
    (bv' : BrownianVariable)
    (h : getValuesLoop sampler tList is bv k = .ok (pairs, bv'))
    (hinv : bv.history ≠ [] ∧ SortedKeys bv.history) :
    bv'.history ≠ [] ∧ SortedKeys bv'.history := by
  induction is generalizing bv k pairs with
  | nil =>
    unfold getValuesLoop at h
    simp only [Except.ok.injEq, Prod.mk.injEq] at h
    rw [← h.2]
    exact hinv
  | cons i rest ih =>
    unfold getValuesLoop at h
    cases hg : bv.getValue (sampler k) (tList.getD i 0) true with
    | error e => rw [hg] at h; exact absurd h (by simp)
    | ok pr =>
      obtain ⟨val, bv₁⟩ := pr
      rw [hg] at h
      dsimp only [] at h
      cases hl : getValuesLoop sampler tList rest bv₁ (k + 1) with
      | error e => rw [hl] at h; exact absurd h (by simp)
      | ok pr' =>
        obtain ⟨pairs', bvF⟩ := pr'
        rw [hl] at h
        dsimp only [] at h
        simp only [Except.ok.injEq, Prod.mk.injEq] at h
        rw [h.2] at hl
        exact ih bv₁ (k + 1) pairs' hl
          (getValue_ok_invariant bv bv₁ (sampler k) (tList.getD i 0) true val hg hinv)

theorem getValues_ok_invariant (bv bv' : BrownianVariable)
    (sampler : ℕ → ℝ → ℝ → ℝ) (ts : List ℝ) (vals : List ℝ)
    (h : bv.getValues sampler ts = .ok (vals, bv'))
    (hinv : bv.history ≠ [] ∧ SortedKeys bv.history) :
    bv'.history ≠ [] ∧ SortedKeys bv'.history := by
  unfold BrownianVariable.getValues at h
  cases hl : getValuesLoop sampler ts (sortedIdxs ts) bv 0 with
  | error e => rw [hl] at h; exact absurd h (by simp)
  | ok pr =>
    obtain ⟨pairs, bv₁⟩ := pr
    rw [hl] at h
    simp only [Except.ok.injEq, Prod.mk.injEq] at h
    rw [← h.2]
    exact getValuesLoop_ok_invariant sampler ts (sortedIdxs ts) bv 0 pairs bv₁ hl hinv

theorem reachable_invariant (bv : BrownianVariable) (h : Reachable bv) :
    bv.history ≠ [] ∧ SortedKeys bv.history := by
  induction h with
  | init sigma startTime startVal drift h0 bv hs hmk =>
    have hbv : bv = ⟨sigma, startTime, startVal, drift,
        storeInsert h0 startTime startVal⟩ := by
      simpa [mkBrownianVariable] using hmk.symm
    rw [hbv]
    exact ⟨storeInsert_ne_nil _ _ _, sortedKeys_storeInsert _ _ _ hs⟩
  | insertData bv t v h ih =>
    exact ⟨storeInsert_ne_nil _ _ _, sortedKeys_storeInsert _ _ _ ih.2⟩
  | getValue bv bv' draw t st val h hstep ih =>
    exact getValue_ok_invariant bv bv' draw t st val hstep ih
  | getValues bv bv' sampler ts vals h hstep ih =>
    exact getValues_ok_invariant bv bv' sampler ts vals hstep ih

/-- C9: every process obtained from the public constructor (which seeds
the history) followed by any sequence of `insertData`, `getValue` and
`getValues` steps has a nonempty history, and every call to
`getPossibleValueDistr` on it finds at least one neighbour, so the
history-corruption branch never fires. -/
theorem history_never_empty_no_corruption (bv : BrownianVariable)
    (h : Reachable bv) :
    bv.history ≠ [] ∧ ∀ t, ∃ d, bv.getPossibleValueDistr t = .ok d := by
  have hinv := reachable_invariant bv h
  exact ⟨hinv.1, fun t => getPossibleValueDistr_isOk bv t hinv.2 hinv.1⟩

/-- Witness for C9: the freshly constructed process with sigma 1 seeded
at (0, 0). -/
theorem history_never_empty_no_corruption_witness :
    Reachable ⟨1, 0, 0, 0, [((0 : ℝ), (0 : ℝ))]⟩ ∧
    ([((0 : ℝ), (0 : ℝ))] ≠ ([] : Store) ∧
      ∀ t, ∃ d, BrownianVariable.getPossibleValueDistr
        ⟨1, 0, 0, 0, [((0 : ℝ), (0 : ℝ))]⟩ t = .ok d) := by
  have hr : Reachable ⟨1, 0, 0, 0, [((0 : ℝ), (0 : ℝ))]⟩ :=
    Reachable.init 1 0 0 0 [] _ (by simp [SortedKeys])
      (by simp [mkBrownianVariable, storeInsert])
  exact ⟨hr, history_never_empty_no_corruption _ hr⟩

/-- C8 counterexample: constructing a process with the negative diffusion
coefficient sigma = -1 does not fail — `__init__` performs no parameter
validation, so the construction returns the object instead of raising
`InvalidParameterError`. -/
theorem init_negative_sigma_succeeds :
    (-1 : ℝ) < 0 ∧
    mkBrownianVariable (-1) 0 0 0 [] =
      .ok ⟨-1, 0, 0, 0, [((0 : ℝ), (0 : ℝ))]⟩ := by
  constructor
  · norm_num
  · simp [mkBrownianVariable, storeInsert]

/-- C8 amended: the constructor validates nothing — it succeeds for every
sigma, including negative ones, and the malformed parameter then
propagates: the process constructed with sigma = -1 reports a
distribution with a negative standard deviation. -/
theorem init_no_validation (sigma startTime startVal drift : ℝ) (history : Store) :
    mkBrownianVariable sigma startTime startVal drift history =
      .ok ⟨sigma, startTime, startVal, drift,
        storeInsert history startTime startVal⟩ ∧
    ∃ d, BrownianVariable.getPossibleValueDistr
        ⟨-1, 0, 0, 0, [((0 : ℝ), (0 : ℝ))]⟩ 1 = .ok d ∧ d.scale < 0 := by
  refine ⟨rfl, ?_⟩
  have hs : SortedKeys [((0 : ℝ), (0 : ℝ))] := by simp [SortedKeys]
  have hm : getMartingaleRelevantPoints [((0 : ℝ), (0 : ℝ))] 1 =
      (some (0, 0), none) := by
    rw [getMartingaleRelevantPoints_eq _ _ hs]
    norm_num [floorItem, ceilingItem]
  refine ⟨⟨(getDistribution 1 0 0 (-1) 0).1, (getDistribution 1 0 0 (-1) 0).2⟩, ?_, ?_⟩
  · rw [distr_branch_left_only _ 1 0 0 hm, if_neg (by norm_num)]
  · norm_num [getDistribution, Real.sqrt_one]

theorem storeAt_setStoreAt_self (s : PyState) (r : ℕ) (st : Store)
    (h : r < s.heap.length) : storeAt (setStoreAt s r st) r = st := by
  simp [storeAt, setStoreAt, List.getD, List.getElem?_set_self', h]

theorem setStoreAt_heap_length (s : PyState) (r : ℕ) (st : Store) :
    (setStoreAt s r st).heap.length = s.heap.length := by
  simp [setStoreAt]

/-- C10: Python evaluates the default argument
`history = BrownianVariableHistory()` once, so in any module state whose
heap holds the default history object, two variables constructed without
an explicit history argument reference one and the same history object:
the second construction inserts its seed point into the history the first
one uses, an `insertData` through the first variable is visible in the
second variable's history, and a sample stored by `getValue` through the
first variable lands in the second variable's history as well. -/
theorem default_history_shared (s : PyState)
    (hdef : defaultHistoryRef < s.heap.length)
    (sigma1 t1 v1 d1 sigma2 t2 v2 d2 : ℝ) :
    (mkBrownianVariableRef sigma1 t1 v1 d1 none s).1.historyRef =
      (mkBrownianVariableRef sigma2 t2 v2 d2 none
        (mkBrownianVariableRef sigma1 t1 v1 d1 none s).2).1.historyRef ∧
    (t2, v2) ∈ storeAt
      (mkBrownianVariableRef sigma2 t2 v2 d2 none
        (mkBrownianVariableRef sigma1 t1 v1 d1 none s).2).2
      (mkBrownianVariableRef sigma1 t1 v1 d1 none s).1.historyRef ∧
    (∀ t v : ℝ, (t, v) ∈ storeAt
      (insertDataVia (mkBrownianVariableRef sigma1 t1 v1 d1 none s).1 t v
        (mkBrownianVariableRef sigma2 t2 v2 d2 none
          (mkBrownianVariableRef sigma1 t1 v1 d1 none s).2).2)
      (mkBrownianVariableRef sigma2 t2 v2 d2 none
        (mkBrownianVariableRef sigma1 t1 v1 d1 none s).2).1.historyRef) ∧
    (∀ (draw : ℝ → ℝ → ℝ) (t val : ℝ) (s' : PyState),
      getValueVia (mkBrownianVariableRef sigma1 t1 v1 d1 none s).1 draw t
        (mkBrownianVariableRef sigma2 t2 v2 d2 none
          (mkBrownianVariableRef sigma1 t1 v1 d1 none s).2).2 = .ok (val, s') →
      (t, val) ∈ storeAt s'
        (mkBrownianVariableRef sigma2 t2 v2 d2 none
          (mkBrownianVariableRef sigma1 t1 v1 d1 none s).2).1.historyRef) := by
  have hr1 : (mkBrownianVariableRef sigma1 t1 v1 d1 none s).1.historyRef =
      defaultHistoryRef := rfl
  have hr2 : (mkBrownianVariableRef sigma2 t2 v2 d2 none
      (mkBrownianVariableRef sigma1 t1 v1 d1 none s).2).1.historyRef =
      defaultHistoryRef := rfl
  have hlen1 : defaultHistoryRef <
      (mkBrownianVariableRef sigma1 t1 v1 d1 none s).2.heap.length := by
    simpa [mkBrownianVariableRef, setStoreAt_heap_length] using hdef
  have hlen2 : defaultHistoryRef <
      (mkBrownianVariableRef sigma2 t2 v2 d2 none
        (mkBrownianVariableRef sigma1 t1 v1 d1 none s).2).2.heap.length := by
    simpa [mkBrownianVariableRef, setStoreAt_heap_length] using hlen1
  have hs2 : storeAt (mkBrownianVariableRef sigma2 t2 v2 d2 none
      (mkBrownianVariableRef sigma1 t1 v1 d1 none s).2).2 defaultHistoryRef =
      storeInsert (storeAt (mkBrownianVariableRef sigma1 t1 v1 d1 none s).2
        defaultHistoryRef) t2 v2 := by
    simp only [mkBrownianVariableRef, Option.getD_none]
    exact storeAt_setStoreAt_self _ _ _ hlen1
  refine ⟨rfl, ?_, ?_, ?_⟩
  · rw [hr1, hs2]
    exact mem_storeInsert_self _ _ _
  · intro t v
    rw [hr2]
    show (t, v) ∈ storeAt (setStoreAt _ defaultHistoryRef _) defaultHistoryRef
    rw [storeAt_setStoreAt_self _ _ _ hlen2]
    exact mem_storeInsert_self _ _ _
  · intro draw t val s' h
    unfold getValueVia at h
    cases hd : (derefVariable (mkBrownianVariableRef sigma1 t1 v1 d1 none s).1
        (mkBrownianVariableRef sigma2 t2 v2 d2 none
          (mkBrownianVariableRef sigma1 t1 v1 d1 none s).2).2).getPossibleValueDistr t with
    | error e => rw [hd] at h; exact absurd h (by simp)
    | ok d =>
      rw [hd] at h
      simp only [Except.ok.injEq, Prod.mk.injEq] at h
      rw [hr2, ← h.2]
      show (t, val) ∈ storeAt (setStoreAt _ defaultHistoryRef _) defaultHistoryRef
      rw [storeAt_setStoreAt_self _ _ _ hlen2, ← h.1]
      exact mem_storeInsert_self _ _ _

/-- Witness for C10: in the freshly loaded module state, two variables
constructed without a history argument (seeded at (0, 0) and (5, 7))
share the default history object; an insert and a stored sample through
the first are visible through the second. -/
theorem default_history_shared_witness :
    defaultHistoryRef < initialPyState.heap.length ∧
    (mkBrownianVariableRef 1 0 0 0 none initialPyState).1.historyRef =
      (mkBrownianVariableRef 1 5 7 0 none
        (mkBrownianVariableRef 1 0 0 0 none initialPyState).2).1.historyRef ∧
    ((5 : ℝ), (7 : ℝ)) ∈ storeAt
      (mkBrownianVariableRef 1 5 7 0 none
        (mkBrownianVariableRef 1 0 0 0 none initialPyState).2).2
      (mkBrownianVariableRef 1 0 0 0 none initialPyState).1.historyRef ∧
    ((9 : ℝ), (4 : ℝ)) ∈ storeAt
      (insertDataVia (mkBrownianVariableRef 1 0 0 0 none initialPyState).1 9 4
        (mkBrownianVariableRef 1 5 7 0 none
          (mkBrownianVariableRef 1 0 0 0 none initialPyState).2).2)
      (mkBrownianVariableRef 1 5 7 0 none
        (mkBrownianVariableRef 1 0 0 0 none initialPyState).2).1.historyRef ∧
    ∃ s' : PyState,
      getValueVia (mkBrownianVariableRef 1 0 0 0 none initialPyState).1
          (fun m _ => m) 5
          (mkBrownianVariableRef 1 5 7 0 none
            (mkBrownianVariableRef 1 0 0 0 none initialPyState).2).2 =
        .ok (7, s') ∧
      ((5 : ℝ), (7 : ℝ)) ∈ storeAt s'
        (mkBrownianVariableRef 1 5 7 0 none
          (mkBrownianVariableRef 1 0 0 0 none initialPyState).2).1.historyRef := by
  have hdef : defaultHistoryRef < initialPyState.heap.length := by
    simp [defaultHistoryRef, initialPyState]
  have h := default_history_shared initialPyState hdef 1 0 0 0 1 5 7 0
  have hist2 : storeAt (mkBrownianVariableRef 1 5 7 0 none
      (mkBrownianVariableRef 1 0 0 0 none initialPyState).2).2 0 =
      [((0 : ℝ), (0 : ℝ)), (5, 7)] := by
    norm_num [mkBrownianVariableRef, initialPyState, storeAt, setStoreAt,
      storeInsert, defaultHistoryRef, List.getD]
  have hsorted : SortedKeys [((0 : ℝ), (0 : ℝ)), (5, 7)] := by
    simp [SortedKeys, List.pairwise_cons]
  have hmm : getMartingaleRelevantPoints [((0 : ℝ), (0 : ℝ)), (5, 7)] 5 =
      (some (5, 7), some (5, 7)) := by
    rw [getMartingaleRelevantPoints_eq _ _ hsorted]
    norm_num [floorItem, ceilingItem]
  have hderef : derefVariable (mkBrownianVariableRef 1 0 0 0 none initialPyState).1
      (mkBrownianVariableRef 1 5 7 0 none
        (mkBrownianVariableRef 1 0 0 0 none initialPyState).2).2 =
      ⟨1, 0, 0, 0, [((0 : ℝ), (0 : ℝ)), (5, 7)]⟩ := by
    show (⟨1, 0, 0, 0, storeAt _ 0⟩ : BrownianVariable) = _
    rw [hist2]
  have hdistr : (derefVariable (mkBrownianVariableRef 1 0 0 0 none initialPyState).1
      (mkBrownianVariableRef 1 5 7 0 none
        (mkBrownianVariableRef 1 0 0 0 none initialPyState).2).2).getPossibleValueDistr 5 =
      .ok ⟨7, 0⟩ := by
    rw [hderef]
    rw [distr_branch_both _ 5 5 7 5 7 hmm, if_pos rfl]
  have hgv : getValueVia (mkBrownianVariableRef 1 0 0 0 none initialPyState).1
      (fun m _ => m) 5
      (mkBrownianVariableRef 1 5 7 0 none
        (mkBrownianVariableRef 1 0 0 0 none initialPyState).2).2 =
      .ok (7, setStoreAt
        (mkBrownianVariableRef 1 5 7 0 none
          (mkBrownianVariableRef 1 0 0 0 none initialPyState).2).2 0
        (storeInsert (storeAt
          (mkBrownianVariableRef 1 5 7 0 none
            (mkBrownianVariableRef 1 0 0 0 none initialPyState).2).2 0) 5 7)) := by
    unfold getValueVia
    rw [hdistr]
    rfl
  exact ⟨hdef, h.1, h.2.1, h.2.2.1 9 4,
    ⟨_, hgv, h.2.2.2 (fun m _ => m) 5 7 _ hgv⟩⟩

/-! Facts about the time-sorted processing order of `getValues`. -/

theorem insertSortedPair_perm (p : ℕ × ℝ) (l : List (ℕ × ℝ)) :
    List.Perm (insertSortedPair p l) (p :: l) := by
  induction l with
  | nil => simp [insertSortedPair]
  | cons q rest ih =>
    simp only [insertSortedPair]
    split
    · exact (ih.cons q).trans (List.Perm.swap p q rest)
    · exact List.Perm.refl _

theorem insertSortedPair_pairwise (p : ℕ × ℝ) (l : List (ℕ × ℝ))
    (hl : List.Pairwise (fun a b : ℕ × ℝ => a.2 ≤ b.2) l) :
    List.Pairwise (fun a b : ℕ × ℝ => a.2 ≤ b.2) (insertSortedPair p l) := by
  induction l with
  | nil => simp [insertSortedPair]
  | cons q rest ih =>
    rw [List.pairwise_cons] at hl
    obtain ⟨hq, hrest⟩ := hl
    simp only [insertSortedPair]
    split
    · rename_i hle
      rw [List.pairwise_cons]
      refine ⟨?_, ih hrest⟩
      intro a ha
      rcases List.mem_cons.mp ((insertSortedPair_perm p rest).mem_iff.mp ha) with h | h
      · rw [h]; exact hle
      · exact hq a h
    · rename_i hgt
      rw [List.pairwise_cons]
      refine ⟨?_, ?_⟩
      · intro a ha
        rcases List.mem_cons.mp ha with h | h
        · rw [h]; exact le_of_lt (not_le.mp hgt)
        · exact le_trans (le_of_lt (not_le.mp hgt)) (hq a h)
      · rw [List.pairwise_cons]; exact ⟨hq, hrest⟩

theorem sortPairsByTime_perm (l : List (ℕ × ℝ)) :
    List.Perm (sortPairsByTime l) l := by
  induction l with
  | nil => simp [sortPairsByTime]
  | cons p rest ih => exact (insertSortedPair_perm p _).trans (ih.cons p)

theorem sortPairsByTime_pairwise (l : List (ℕ × ℝ)) :
    List.Pairwise (fun a b : ℕ × ℝ => a.2 ≤ b.2) (sortPairsByTime l) := by
  induction l with
  | nil => simp [sortPairsByTime]
  | cons p rest ih => exact insertSortedPair_pairwise p _ ih

theorem mem_zip_range (tList : List ℝ) (p : ℕ × ℝ)
    (hp : p ∈ (List.range tList.length).zip tList) :
    p.1 < tList.length ∧ p.2 = tList.getD p.1 0 := by
  rw [← List.enum_eq_zip_range tList] at hp
  have h := List.mem_enum_iff_getElem?.mp hp
  constructor
  · exact (List.getElem?_eq_some_iff.mp h).1
  · rw [List.getD_eq_getElem?_getD, h]; rfl

theorem sortedIdxs_times_sorted (tList : List ℝ) :
    List.Pairwise (· ≤ ·) ((sortedIdxs tList).map (fun i => tList.getD i 0)) := by
  unfold sortedIdxs
  rw [List.map_map, List.pairwise_map]
  refine (sortPairsByTime_pairwise _).imp_of_mem ?_
  intro a b ha hb hab
  have ha' := (mem_zip_range tList a ((sortPairsByTime_perm _).mem_iff.mp ha)).2
  have hb' := (mem_zip_range tList b ((sortPairsByTime_perm _).mem_iff.mp hb)).2
  show tList.getD a.1 0 ≤ tList.getD b.1 0
  rw [← ha', ← hb']
  exact hab

theorem sortedIdxs_perm_range (tList : List ℝ) :
    List.Perm (sortedIdxs tList) (List.range tList.length) := by
  unfold sortedIdxs
  have h := (sortPairsByTime_perm ((List.range tList.length).zip tList)).map Prod.fst
  rw [List.map_fst_zip _ _ (by simp)] at h
  exact h

theorem getValuesLoop_fst (sampler : ℕ → ℝ → ℝ → ℝ) (tList : List ℝ)
    (is : List ℕ) (bv : BrownianVariable) (k : ℕ) (pairs : List (ℕ × ℝ))
    (bv' : BrownianVariable)
    (h : getValuesLoop sampler tList is bv k = .ok (pairs, bv')) :
    pairs.map Prod.fst = is := by
  induction is generalizing bv k pairs with
  | nil =>
    unfold getValuesLoop at h
    simp only [Except.ok.injEq, Prod.mk.injEq] at h
    rw [← h.1]
    rfl
  | cons i rest ih =>
    unfold getValuesLoop at h
    cases hg : bv.getValue (sampler k) (tList.getD i 0) true with
    | error e => rw [hg] at h; exact absurd h (by simp)
    | ok pr =>
      obtain ⟨val, bv₁⟩ := pr
      rw [hg] at h
      dsimp only [] at h
      cases hl : getValuesLoop sampler tList rest bv₁ (k + 1) with
      | error e => rw [hl] at h; exact absurd h (by simp)
      | ok pr' =>
        obtain ⟨pairs', bvF⟩ := pr'
        rw [hl] at h
        dsimp only [] at h
        simp only [Except.ok.injEq, Prod.mk.injEq] at h
        rw [h.2] at hl
        rw [← h.1, List.map_cons]
        rw [ih bv₁ (k + 1) pairs' hl]

theorem lookup_eq_of_mem (pairs : List (ℕ × ℝ)) (i : ℕ) (val : ℝ)
    (hnd : (pairs.map Prod.fst).Nodup) (hmem : (i, val) ∈ pairs) :
    pairs.lookup i = some val := by
  induction pairs with
  | nil => simp at hmem
  | cons q rest ih =>
    rw [List.map_cons, List.nodup_cons] at hnd
    obtain ⟨hq, hrest⟩ := hnd
    rcases List.mem_cons.mp hmem with h | h
    · rw [← h]
      simp [List.lookup]
    · obtain ⟨k, w⟩ := q
      have hki : i ≠ k := by
        intro hh
        exact hq (hh ▸ List.mem_map.mpr ⟨(i, val), h, rfl⟩)
      simp only [List.lookup]
      rw [beq_eq_false_iff_ne.mpr hki]
      exact ih hrest h

theorem getD_map_range (n : ℕ) (f : ℕ → ℝ) (i : ℕ) (h : i < n) :
    ((List.range n).map f).getD i 0 = f i := by
  rw [List.getD_eq_getElem?_getD, List.getElem?_map, List.getElem?_range h]
  rfl

/-- C4: a successful `getValues` call draws its samples in ascending time
order regardless of the order of the input list — the processing order
`sortedIdxs` visits the positions of `tList` with nondecreasing times and
visits every position exactly once — and each step inserts its sample
into the history before the next draw runs (the loop passes each step's
updated variable to the rest of the loop); the returned list places the
sample drawn for position `i` at position `i` of the result. -/
theorem getValues_ascending_and_placement (tList : List ℝ)
    (sampler : ℕ → ℝ → ℝ → ℝ) (bv : BrownianVariable)
    (vals : List ℝ) (bvF : BrownianVariable)
    (hrun : bv.getValues sampler tList = .ok (vals, bvF)) :
    List.Pairwise (· ≤ ·) ((sortedIdxs tList).map (fun i => tList.getD i 0)) ∧
    List.Perm (sortedIdxs tList) (List.range tList.length) ∧
    (∀ (i : ℕ) (rest : List ℕ) (bv₀ : BrownianVariable) (k : ℕ),
      getValuesLoop sampler tList (i :: rest) bv₀ k =
        match bv₀.getValue (sampler k) (tList.getD i 0) true with
        | .error e => .error e
        | .ok (val, bv₁) =>
          match getValuesLoop sampler tList rest bv₁ (k + 1) with
          | .error e => .error e
          | .ok (pairs, bv₂) => .ok ((i, val) :: pairs, bv₂)) ∧
    ∃ pairs bv₁,
      getValuesLoop sampler tList (sortedIdxs tList) bv 0 = .ok (pairs, bv₁) ∧
      bvF = bv₁ ∧
      pairs.map Prod.fst = sortedIdxs tList ∧
      vals.length = tList.length ∧
      ∀ (i : ℕ) (val : ℝ), (i, val) ∈ pairs → vals.getD i 0 = val := by
  refine ⟨sortedIdxs_times_sorted tList, sortedIdxs_perm_range tList,
    fun i rest bv₀ k => rfl, ?_⟩
  unfold BrownianVariable.getValues at hrun
  cases hl : getValuesLoop sampler tList (sortedIdxs tList) bv 0 with
  | error e => rw [hl] at hrun; exact absurd hrun (by simp)
  | ok pr =>
    obtain ⟨pairs, bv₁⟩ := pr
    rw [hl] at hrun
    dsimp only [] at hrun
    simp only [Except.ok.injEq, Prod.mk.injEq] at hrun
    have hfst := getValuesLoop_fst sampler tList _ bv 0 pairs bv₁ hl
    have hnd : (pairs.map Prod.fst).Nodup := by
      rw [hfst]
      exact (sortedIdxs_perm_range tList).nodup_iff.mpr (List.nodup_range _)
    refine ⟨pairs, bv₁, rfl, hrun.2.symm, hfst, ?_, ?_⟩
    · rw [← hrun.1]
      simp
    · intro i val hmem
      have hi : i < tList.length := by
        have hmm : i ∈ pairs.map Prod.fst := List.mem_map.mpr ⟨(i, val), hmem, rfl⟩
        rw [hfst] at hmm
        exact List.mem_range.mp ((sortedIdxs_perm_range tList).mem_iff.mp hmm)
      rw [← hrun.1, getD_map_range _ _ i hi, lookup_eq_of_mem pairs i val hnd hmem]
      rfl

/-- Witness for C4: the process seeded at (0, 0) with sigma 1 and drift 0,
the mean-returning sampler, and the out-of-order batch [5, 2]: time 2
(input position 1) is drawn first, time 5 second, and the result list is
assembled back in input order. -/
theorem getValues_ascending_and_placement_witness :
    BrownianVariable.getValues ⟨1, 0, 0, 0, [((0 : ℝ), (0 : ℝ))]⟩
        (fun _ m _ => m) [5, 2] =
      .ok ([0, 0], ⟨1, 0, 0, 0, [((0 : ℝ), (0 : ℝ)), (2, 0), (5, 0)]⟩) ∧
    sortedIdxs [(5 : ℝ), 2] = [1, 0] ∧
    List.Pairwise (· ≤ ·)
      ((sortedIdxs [(5 : ℝ), 2]).map (fun i => [(5 : ℝ), 2].getD i 0)) ∧
    List.Perm (sortedIdxs [(5 : ℝ), 2]) (List.range [(5 : ℝ), 2].length) := by
  have hsort : sortedIdxs [(5 : ℝ), 2] = [1, 0] := by
    unfold sortedIdxs
    rw [show List.range ([(5 : ℝ), 2].length) = [0, 1] from rfl]
    rw [show [0, 1].zip [(5 : ℝ), 2] = [(0, 5), (1, 2)] from rfl]
    norm_num [sortPairsByTime, insertSortedPair]
  have hs1 : SortedKeys [((0 : ℝ), (0 : ℝ))] := by simp [SortedKeys]
  have hm1 : getMartingaleRelevantPoints [((0 : ℝ), (0 : ℝ))] 2 =
      (some (0, 0), none) := by
    rw [getMartingaleRelevantPoints_eq _ _ hs1]
    norm_num [floorItem, ceilingItem]
  have hd1 : BrownianVariable.getPossibleValueDistr
      ⟨1, 0, 0, 0, [((0 : ℝ), (0 : ℝ))]⟩ 2 =
      .ok ⟨0, Real.sqrt |(2 : ℝ) - 0| * 1⟩ := by
    rw [distr_branch_left_only _ 2 0 0 hm1, if_neg (by norm_num)]
    norm_num [getDistribution]
  have hstep1 : BrownianVariable.getValue ⟨1, 0, 0, 0, [((0 : ℝ), (0 : ℝ))]⟩
      ((fun _ (m : ℝ) (_ : ℝ) => m) 0) 2 true =
      .ok (0, ⟨1, 0, 0, 0, [((0 : ℝ), (0 : ℝ)), (2, 0)]⟩) := by
    unfold BrownianVariable.getValue
    rw [hd1]
    norm_num [storeInsert]
  have hs2 : SortedKeys [((0 : ℝ), (0 : ℝ)), (2, 0)] := by
    simp [SortedKeys, List.pairwise_cons]
  have hm2 : getMartingaleRelevantPoints [((0 : ℝ), (0 : ℝ)), (2, 0)] 5 =
      (some (2, 0), none) := by
    rw [getMartingaleRelevantPoints_eq _ _ hs2]
    norm_num [floorItem, ceilingItem]
  have hd2 : BrownianVariable.getPossibleValueDistr
      ⟨1, 0, 0, 0, [((0 : ℝ), (0 : ℝ)), (2, 0)]⟩ 5 =
      .ok ⟨0, Real.sqrt |(5 : ℝ) - 2| * 1⟩ := by
    rw [distr_branch_left_only _ 5 2 0 hm2, if_neg (by norm_num)]
    norm_num [getDistribution]
  have hstep2 : BrownianVariable.getValue
      ⟨1, 0, 0, 0, [((0 : ℝ), (0 : ℝ)), (2, 0)]⟩
      ((fun _ (m : ℝ) (_ : ℝ) => m) (0 + 1)) 5 true =
      .ok (0, ⟨1, 0, 0, 0, [((0 : ℝ), (0 : ℝ)), (2, 0), (5, 0)]⟩) := by
    unfold BrownianVariable.getValue
    rw [hd2]
    norm_num [storeInsert]
  have hloop : getValuesLoop (fun _ m _ => m) [(5 : ℝ), 2] [1, 0]
      ⟨1, 0, 0, 0, [((0 : ℝ), (0 : ℝ))]⟩ 0 =
      .ok ([(1, 0), (0, 0)],
        ⟨1, 0, 0, 0, [((0 : ℝ), (0 : ℝ)), (2, 0), (5, 0)]⟩) := by
    simp only [getValuesLoop]
    rw [show ([(5 : ℝ), 2].getD 1 0) = 2 from rfl,
      show ([(5 : ℝ), 2].getD 0 0) = 5 from rfl]
    rw [hstep1]
    dsimp only []
    rw [hstep2]
  have hrun : BrownianVariable.getValues ⟨1, 0, 0, 0, [((0 : ℝ), (0 : ℝ))]⟩
      (fun _ m _ => m) [5, 2] =
      .ok ([0, 0], ⟨1, 0, 0, 0, [((0 : ℝ), (0 : ℝ)), (2, 0), (5, 0)]⟩) := by
    unfold BrownianVariable.getValues
    rw [hsort, hloop]
    rfl
  have h := getValues_ascending_and_placement [5, 2] (fun _ m _ => m)
    ⟨1, 0, 0, 0, [((0 : ℝ), (0 : ℝ))]⟩ [0, 0]
    ⟨1, 0, 0, 0, [((0 : ℝ), (0 : ℝ)), (2, 0), (5, 0)]⟩ hrun
  exact ⟨hrun, hsort, h.1, h.2.1⟩
